import Mathlib

/-!
# Verification of the seq2pat sequential utilities

Shallow embedding of `src/sequential/utils.py` and proofs about it.

Modelling conventions:
* Python `int` is `ℤ`, Python `float` is `ℚ` (exact arithmetic model of the
  real-valued computations; no rounding is modelled).
* A value that may be an `int`, a `float` or anything else (as inspected by
  `isinstance`) is `PyNum`.
* Python exceptions are modelled with `Except PyErr`; `check_true` mirrors the
  helper of the same name in the source.
* Python `sorted` (Timsort) is a stable sort with respect to a total preorder
  on keys; it is modelled by `List.insertionSort`, which is also stable.
-/

namespace Seq2Pat

/-- A Python value passed as a `min_frequency` threshold: a float (`ℚ`),
an int (`ℤ`), or any other object (neither `int` nor `float`). -/
inductive PyNum where
  | f (q : ℚ)
  | i (z : ℤ)
  | other
deriving DecidableEq, Repr

/-- Python exceptions raised by the validators in the source. -/
inductive PyErr where
  | typeError (msg : String)
  | valueError (msg : String)
deriving DecidableEq, Repr

/-- `isinstance(x, float)` for a `PyNum`. -/
def PyNum.isFloat : PyNum → Bool
  | .f _ => true
  | _ => false

/-- The value of a `PyNum` as a rational (`other` has no numeric value; 0). -/
def PyNum.toQ : PyNum → ℚ
  | .f q => q
  | .i z => (z : ℚ)
  | .other => 0

/-- String rendering of a `PyNum`, standing in for Python `str(x)` in
formatted error messages. -/
def pyNumStr : PyNum → String
  | .f q => toString q
  | .i z => toString z
  | .other => "<object>"

/-- `check_true(expression, exception)` from the source: raises the given
exception when the expression is false. -/
def check_true (expression : Bool) (exception : PyErr) : Except PyErr Unit :=
  if expression then .ok () else .error exception

/-- Sequencing of two Python statements that may raise: if the first raises,
the exception propagates; otherwise the second runs. -/
def pySeq (a b : Except PyErr Unit) : Except PyErr Unit :=
  match a with
  | .ok _ => b
  | .error e => .error e

/-- `validate_min_frequency(num_rows, min_frequency)` from the source:
float thresholds must lie in (0, 1] and satisfy `min_frequency * num_rows ≥ 1`;
int thresholds must lie in [1, num_rows]; anything else is a `TypeError`. -/
def validate_min_frequency (num_rows : ℤ) (min_frequency : PyNum) : Except PyErr Unit :=
  match min_frequency with
  | .f q =>
      pySeq (check_true (decide (0 < q))
        (.valueError ("Minimum frequency percentage should be greater than 0.0. " ++
          "Current minimum frequency is " ++ toString q ++ ".")))
      (pySeq (check_true (decide (q ≤ 1))
        (.valueError ("Minimum frequency percentage should be less than 1.0. " ++
          "Current minimum frequency is " ++ toString q ++ ".")))
      (check_true (decide ((1 : ℚ) ≤ q * (num_rows : ℚ)))
        (.valueError ("Minimum frequency percentage should set the minimum " ++
          "row count to be no less than 1.0. " ++
          "Thus the percentage should be no less than 1/(number of sequences)."))))
  | .i z =>
      pySeq (check_true (decide (0 < z))
        (.valueError ("Minimum frequency should be greater than 0.0. " ++
          "Current minimum frequency is " ++ toString z ++ ".")))
      (check_true (decide (z ≤ num_rows))
        (.valueError ("Minimum frequency cannot be more than number of sequences. " ++
          "Current minimum frequency is " ++ toString z ++ ".")))
  | .other =>
      .error (.typeError
        "Minimum frequency should be integer (as a row count) or float (as a row percentage).")

/-- Classify the outcome of a validator call: 0 = returned normally,
1 = raised `TypeError`, 2 = raised `ValueError`. -/
def errClass : Except PyErr Unit → Nat
  | .ok _ => 0
  | .error (.typeError _) => 1
  | .error (.valueError _) => 2

/-- The fixed part of the message `validate_min_frequency_with_batch` uses when
re-raising a `ValueError` for a specific chunk size. -/
def chunkMsgPre (mf : PyNum) : String :=
  "Minimum frequency " ++ pyNumStr mf ++
    " is not validate for the sequences in the chunk size "

/-- The message `"Minimum frequency {} is not validate for the sequences in the
chunk size {}!"` from the source, with both holes filled in. -/
def chunkMsg (mf : PyNum) (size : ℤ) : String :=
  chunkMsgPre mf ++ toString size ++ "!"

/-- `validate_min_frequency_with_batch(num_rows, batch_size, min_frequency)`
from the source: a non-float threshold with `num_rows > batch_size` is a
`TypeError`; otherwise the threshold is validated against `batch_size`
(re-raising a `ValueError` that names the chunk size), and, when
`num_rows % batch_size > 1`, also against that remainder chunk size. -/
def validate_min_frequency_with_batch (num_rows batch_size : ℤ) (min_frequency : PyNum) :
    Except PyErr Unit :=
  if min_frequency.isFloat = false ∧ batch_size < num_rows then
    .error (.typeError
      "Minimum frequency should be float (as a row percentage) when Seq2Pat runs on batches.")
  else
    match validate_min_frequency batch_size min_frequency with
    | .error (.valueError _) => .error (.valueError (chunkMsg min_frequency batch_size))
    | .error e => .error e
    | .ok _ =>
      if 1 < num_rows % batch_size then
        match validate_min_frequency (num_rows % batch_size) min_frequency with
        | .error (.valueError _) =>
            .error (.valueError (chunkMsg min_frequency (num_rows % batch_size)))
        | .error e => .error e
        | .ok _ => .ok ()
      else .ok ()

/-- `update_min_frequency(num_rows, min_frequency, min_frequency_lb)` from the
source: a float threshold becomes `ceil(min_frequency)` when `num_rows == 1`
and `max(min_frequency * min_frequency_lb, 1/num_rows)` otherwise; any other
threshold is returned unchanged. -/
def update_min_frequency (num_rows : ℤ) (min_frequency : PyNum) (min_frequency_lb : ℚ) :
    PyNum :=
  match min_frequency with
  | .f q =>
      if num_rows = 1 then .i ⌈q⌉
      else .f (max (q * min_frequency_lb) (1 / (num_rows : ℚ)))
  | x => x

/-- A Pattern Row: a list of integer items whose last element is the
trailing count. -/
abbrev Row := List Int

/-- The pattern key of a row: `x[:-1]`, every element except the trailing
count. -/
def pkey (r : Row) : List Int := r.dropLast

/-- The trailing count of a row: `x[-1]` (defaulting to 0 on the empty list,
which never occurs in a Pattern Row). -/
def pcount (r : Row) : Int := r.getLastD 0

/-- Python `<=` comparison of integer lists: lexicographic, with a proper
prefix smaller than its extensions. -/
def listLe : List Int → List Int → Bool
  | [], _ => true
  | _ :: _, [] => false
  | a :: as, b :: bs => if a < b then true else if b < a then false else listLe as bs

/-- The sort key relation of the first `sorted` call in `sort_pattern`:
ascending by the item prefix `x[:-1]`. -/
def leByKey (a b : Row) : Prop := listLe (pkey a) (pkey b) = true

/-- The sort key relation of the second, `reverse=True`, `sorted` call in
`sort_pattern`: descending by the trailing count `x[-1]`. -/
def geByCount (a b : Row) : Prop := pcount b ≤ pcount a

instance : DecidableRel leByKey := fun a b =>
  inferInstanceAs (Decidable (listLe (pkey a) (pkey b) = true))

instance : DecidableRel geByCount := fun a b =>
  inferInstanceAs (Decidable (pcount b ≤ pcount a))

/-- `sort_pattern(patterns)` from the source: Python's `sorted` is a stable
sort, modelled by `List.insertionSort` (also stable); first sort ascending by
the item prefix, then stably re-sort descending by the trailing count. -/
def sort_pattern (patterns : List Row) : List Row :=
  List.insertionSort geByCount (List.insertionSort leByKey patterns)

/-- The order that actually holds between entries of `sort_pattern`'s output:
primary descending trailing count, secondary ascending item prefix. -/
def outOrder (a b : Row) : Prop :=
  pcount b < pcount a ∨ (pcount a = pcount b ∧ leByKey a b)

/-- The order the spec claims between entries of `sort_pattern`'s output:
primary ascending item prefix, secondary descending trailing count. -/
def claimedOrder (a b : Row) : Prop :=
  leByKey a b ∧ (pkey a = pkey b → pcount b ≤ pcount a)

/-- A Python dict/Counter keyed by pattern keys, modelled as an
insertion-ordered association list. -/
abbrev Counter := List (List Int × Int)

/-- Dict lookup: value of the first entry with the given key. -/
def ctrGet? : Counter → List Int → Option Int
  | [], _ => none
  | (k', v) :: c, k => if k' = k then some v else ctrGet? c k

/-- `counter.get(k, 0)`. -/
def ctrGetD (c : Counter) (k : List Int) : Int := (ctrGet? c k).getD 0

/-- `d[k] = v` on a Python dict: replaces the value at an existing key in
place, otherwise appends the new key at the end. -/
def dictSet : Counter → List Int → Int → Counter
  | [], k, v => [(k, v)]
  | (k', v') :: c, k, v => if k' = k then (k, v) :: c else (k', v') :: dictSet c k v

/-- `self[k] = v + self.get(k, 0)`: the per-key step of `Counter.update`. -/
def ctrAdd : Counter → List Int → Int → Counter
  | [], k, v => [(k, v)]
  | (k', v') :: c, k, v => if k' = k then (k, v + v') :: c else (k', v') :: ctrAdd c k v

/-- `list_to_counter(patterns)` from the source:
`Counter(dict(zip(keys, frequencies)))` where `keys = map(tuple, x[:-1])` and
`frequencies = map(x[-1])`; building the dict pair by pair means a later row
with the same key overwrites an earlier one. -/
def list_to_counter (patterns : List Row) : Counter :=
  (patterns.map (fun x => (pkey x, pcount x))).foldl (fun d p => dictSet d p.1 p.2) []

/-- `counter.update(other)` on Python Counters: adds `other`'s counts into
`self` key by key, appending unseen keys in `other`'s order. -/
def ctrUpdate (self other : Counter) : Counter :=
  other.foldl (fun s p => ctrAdd s p.1 p.2) self

/-- The merged counter built by the loop in `aggregate_patterns`. -/
def aggregateCounter (batch_patterns : List (List Row)) : Counter :=
  batch_patterns.foldl (fun c patterns => ctrUpdate c (list_to_counter patterns)) []

/-- `counter_to_list(patterns_counter, min_row_count)` from the source: skip
entries whose count is `< min_row_count`, turn each survivor into
`list(key) + [value]`, and sort. -/
def counter_to_list (patterns_counter : Counter) (min_row_count : Int) : List Row :=
  sort_pattern ((patterns_counter.filter (fun p => ! decide (p.2 < min_row_count))).map
    (fun p => p.1 ++ [p.2]))

/-- `aggregate_patterns(batch_patterns, min_row_count)` from the source:
update an empty counter with each chunk's counter, filter by the threshold,
and sort (`counter_to_list` already sorts; the result is sorted again). -/
def aggregate_patterns (batch_patterns : List (List Row)) (min_row_count : Int) :
    List Row :=
  sort_pattern (counter_to_list (aggregateCounter batch_patterns) min_row_count)

/-- Sum of the trailing counts of all rows of one chunk carrying key `k`. -/
def chunkTotal (c : List Row) (k : List Int) : Int :=
  ((c.filter (fun r => decide (pkey r = k))).map pcount).sum

/-- Sum over all chunks of the counts the chunk's rows attach to key `k`. -/
def totalCount (batch : List (List Row)) (k : List Int) : Int :=
  (batch.map (fun c => chunkTotal c k)).sum

/-- Trailing count of the last row of `patterns` carrying key `k` (0 when no
row carries it). -/
def lastCount (patterns : List Row) (k : List Int) : Int :=
  ((patterns.filter (fun r => decide (pkey r = k))).map pcount).getLastD 0

/-- Key `k` occurs as the pattern key of some row of some chunk. -/
def seenIn (batch : List (List Row)) (k : List Int) : Prop :=
  ∃ c ∈ batch, ∃ r ∈ c, pkey r = k

/-- Number of occurrences of the row `r` in a row list. -/
def countRow (r : Row) (l : List Row) : Nat :=
  (l.filter (fun x => decide (x = r))).length

/-- All keys of a counter are distinct (true of every Python dict). -/
def KeysNodup (c : Counter) : Prop := (c.map Prod.fst).Nodup

/-- A constraint object: it owns a per-sequence list of attribute values
(`constraint.attribute.values` in the source, with the intermediate
`attribute` object flattened away; `set_values` replaces the list). -/
structure Constraint where
  values : List Int
deriving DecidableEq, Repr

/-- The heap of constraint objects, addressed by position. `deepcopy`
allocates a fresh object at the end of the heap. -/
abbrev Store := List Constraint

/-- A Python dict from constraint name to (the address of) a constraint. -/
abbrev CsMap := List (String × Nat)

/-- A Python dict from attribute name to its constraint dict. -/
abbrev AttrMap := List (String × CsMap)

/-- One step of a linear congruential generator. It stands in for the seeded
Mersenne twister behind `random.seed`/`random.shuffle`; the only property the
source relies on is that the stream is a deterministic function of the seed. -/
def lcgNext (s : Nat) : Nat :=
  (6364136223846793005 * s + 1442695040888963407) % 18446744073709551616

/-- Modelled from the spec: the body of `random.shuffle` (Python stdlib, not
in `src/`), described in §4.5 as drawing "a uniformly random permutation of
the sequence index range using a seeded generator (same seed ⇒ same
permutation)". A draw-without-replacement loop driven by `lcgNext`, with
explicit fuel so that it computes by reduction; `drawPerm` supplies the fuel. -/
def drawPermFuel : Nat → Nat → List Nat → List Nat
  | 0, _, _ => []
  | _ + 1, _, [] => []
  | fuel + 1, s, a :: l =>
      let x := (a :: l).get ⟨s % (a :: l).length, Nat.mod_lt _ (Nat.succ_pos _)⟩
      x :: drawPermFuel fuel (lcgNext s) ((a :: l).erase x)

/-- The permutation drawn from seed `s` on the index list `l`. -/
def drawPerm (s : Nat) (l : List Nat) : List Nat := drawPermFuel l.length s l

/-- `indices = list(range(len(sequences))); random.seed(seed);
random.shuffle(indices)` from the source. -/
def shuffleIndices (seed n : Nat) : List Nat := drawPerm seed (List.range n)

/-- The inner loop of `shuffle_data` over one attribute's constraint dict:
for each constraint, `deepcopy` the old object (allocate a fresh copy at the
end of the store), install the index-reordered value list on the copy via
`set_values`, and re-point the dict entry at the copy. -/
def shuffleCsMap (indices : List Nat) : Store → CsMap → Store × CsMap
  | st, [] => (st, [])
  | st, (cs, addr) :: rest =>
      let old := st.getD addr ⟨[]⟩
      let st' := st ++ [⟨indices.map (fun i => old.values.getD i 0)⟩]
      ((shuffleCsMap indices st' rest).1,
        (cs, st.length) :: (shuffleCsMap indices st' rest).2)

/-- The outer loop of `shuffle_data` over the attribute dict. -/
def shuffleAttrMap (indices : List Nat) : Store → AttrMap → Store × AttrMap
  | st, [] => (st, [])
  | st, (attr, csm) :: rest =>
      ((shuffleAttrMap indices (shuffleCsMap indices st csm).1 rest).1,
        (attr, (shuffleCsMap indices st csm).2) ::
          (shuffleAttrMap indices (shuffleCsMap indices st csm).1 rest).2)

/-- `shuffle_data(sequences, attr_to_cs, seed)` from the source, in
store-passing form. The returned `AttrMap` is simultaneously the post-state
of the caller's `attr_to_cs` object: the line
`attr_to_cs[attr][cs] = new_constraint` mutates the passed-in dict in place
and the function returns that same dict. The caller's sequence list object is
never written to (`sequences = [sequences[i] for i in indices]` only rebinds
the local name to a fresh list). -/
def shuffle_data (st : Store) (sequences : List (List Int)) (attr_to_cs : AttrMap)
    (seed : Nat) : Store × List (List Int) × AttrMap :=
  let indices := shuffleIndices seed sequences.length
  ((shuffleAttrMap indices st attr_to_cs).1,
    indices.map (fun i => sequences.getD i []),
    (shuffleAttrMap indices st attr_to_cs).2)

/-- Modelled from the spec: `is_subsequence(pattern, sequence)` (§4.2, absent
from `src/`): "two-pointer forward scan; returns true iff every item of
`pattern`, in order, can be matched to a strictly increasing sequence of
positions in `sequence`". -/
def is_subsequence : List Int → List Int → Bool
  | [], _ => true
  | _ :: _, [] => false
  | a :: p, b :: s =>
      if a = b then is_subsequence p s else is_subsequence (a :: p) s

/-- Modelled from the spec: `is_subsequence_in_rolling(pattern, sequence,
window_size)` (§4.2, absent from `src/`): "returns false immediately if
`pattern` is longer than `sequence`. If `sequence` fits within one window,
delegates to the plain check. Otherwise slides a window of fixed
`window_size` across all valid start offsets `0..=len(sequence)-window_size`". -/
def is_subsequence_in_rolling (pattern sequence : List Int) (window_size : Nat) :
    Bool :=
  if sequence.length < pattern.length then false
  else if sequence.length ≤ window_size then is_subsequence pattern sequence
  else (List.range (sequence.length - window_size + 1)).any
    (fun i => is_subsequence pattern ((sequence.drop i).take window_size))

theorem listLe_total : ∀ a b : List Int, listLe a b = true ∨ listLe b a = true := by
  intro a
  induction a with
  | nil => intro b; exact Or.inl rfl
  | cons x as ih =>
    intro b
    cases b with
    | nil => exact Or.inr rfl
    | cons y bs =>
      by_cases h1 : x < y
      · left; simp [listLe, h1]
      · by_cases h2 : y < x
        · right; simp [listLe, h2]
        · rcases ih bs with h | h
          · left; simp [listLe, h1, h2, h]
          · right; simp [listLe, h1, h2, h]

theorem listLe_trans : ∀ {a b c : List Int},
    listLe a b = true → listLe b c = true → listLe a c = true := by
  intro a
  induction a with
  | nil => intro b c _ _; rfl
  | cons x as ih =>
    intro b c hab hbc
    cases b with
    | nil => simp [listLe] at hab
    | cons y bs =>
      cases c with
      | nil => simp [listLe] at hbc
      | cons z cs =>
        simp only [listLe] at hab hbc ⊢
        split_ifs at hab hbc ⊢ <;>
          first
            | rfl
            | omega
            | exact ih hab hbc

instance : IsTotal Row leByKey := ⟨fun a b => listLe_total (pkey a) (pkey b)⟩

instance : IsTrans Row leByKey := ⟨fun _ _ _ => listLe_trans⟩

theorem pairwise_outOrder_orderedInsert (a : Row) (s : List Row)
    (hs : s.Pairwise outOrder)
    (ha : ∀ b ∈ s, pcount a = pcount b → leByKey a b) :
    (List.orderedInsert geByCount a s).Pairwise outOrder := by
  induction s with
  | nil => simp [List.Pairwise.nil]
  | cons b t ih =>
    rcases List.pairwise_cons.1 hs with ⟨hb, ht⟩
    by_cases h : geByCount a b
    · rw [List.orderedInsert_of_le _ _ h]
      refine List.pairwise_cons.2 ⟨?_, hs⟩
      intro y hy
      rcases List.mem_cons.1 hy with rfl | hyt
      · rcases eq_or_lt_of_le h with heq | hlt
        · exact Or.inr ⟨heq.symm, ha y (List.mem_cons_self _ _) heq.symm⟩
        · exact Or.inl hlt
      · rcases hb y hyt with hlt | ⟨heq, -⟩
        · exact Or.inl (lt_of_lt_of_le hlt h)
        · have hba : pcount b ≤ pcount a := h
          rcases eq_or_lt_of_le (heq ▸ hba) with heq2 | hlt2
          · exact Or.inr ⟨heq2.symm, ha y (List.mem_cons_of_mem _ hyt) heq2.symm⟩
          · exact Or.inl hlt2
    · simp only [List.orderedInsert, if_neg h]
      refine List.pairwise_cons.2 ⟨?_, ih ht (fun y hy => ha y (List.mem_cons_of_mem _ hy))⟩
      intro y hy
      rcases (List.mem_orderedInsert _).1 hy with rfl | hyt
      · exact Or.inl (lt_of_not_le h)
      · exact hb y hyt

theorem pairwise_outOrder_insertionSort (l : List Row) (hl : l.Pairwise leByKey) :
    (List.insertionSort geByCount l).Pairwise outOrder := by
  induction l with
  | nil => exact List.Pairwise.nil
  | cons a t ih =>
    rcases List.pairwise_cons.1 hl with ⟨hhead, htail⟩
    exact pairwise_outOrder_orderedInsert a _ (ih htail)
      (fun b hb _ => hhead b ((List.mem_insertionSort _).1 hb))

theorem sort_pattern_perm (patterns : List Row) :
    (sort_pattern patterns).Perm patterns :=
  (List.perm_insertionSort _ _).trans (List.perm_insertionSort _ _)

/-- C3 (amended): `sort_pattern` returns a permutation of the rows ordered
with primary key *descending* trailing count and secondary key *ascending*
lexicographic item prefix (the two stable sorts make the last key primary). -/
theorem sort_pattern_spec (patterns : List Row) :
    (sort_pattern patterns).Perm patterns ∧
    (sort_pattern patterns).Pairwise outOrder :=
  ⟨(List.perm_insertionSort _ _).trans (List.perm_insertionSort _ _),
    pairwise_outOrder_insertionSort _ (List.sorted_insertionSort leByKey patterns)⟩

/-- C3 (counterexample): on the rows `[1, 5]` and `[2, 7]` the output of
`sort_pattern` is *not* ordered primary-ascending by item prefix with ties
broken descending by count: `[2, 7]` (count 7) comes first. -/
theorem sort_pattern_claim_counterexample :
    ¬ (sort_pattern [[1, 5], [2, 7]]).Pairwise claimedOrder := by
  have e : sort_pattern [[1, 5], [2, 7]] = [[2, 7], [1, 5]] := by decide
  intro h
  rw [e] at h
  have h2 := (List.pairwise_cons.1 h).1 [1, 5] (List.mem_cons_self _ _)
  exact absurd h2.1 (by decide)

theorem ctrGet?_dictSet (d : Counter) (k k' : List Int) (v : Int) :
    ctrGet? (dictSet d k v) k' = if k = k' then some v else ctrGet? d k' := by
  induction d with
  | nil => simp [dictSet, ctrGet?]
  | cons p c ih =>
    obtain ⟨k0, v0⟩ := p
    by_cases h : k0 = k
    · subst h
      simp only [dictSet, if_pos rfl, ctrGet?]
      split_ifs <;> simp_all [ctrGet?]
    · simp only [dictSet, if_neg h, ctrGet?]
      split_ifs <;> simp_all [ctrGet?]

theorem ctrGet?_ctrAdd (d : Counter) (k k' : List Int) (v : Int) :
    ctrGet? (ctrAdd d k v) k'
      = if k = k' then some (v + ctrGetD d k) else ctrGet? d k' := by
  induction d with
  | nil => simp [ctrAdd, ctrGet?, ctrGetD]
  | cons p c ih =>
    obtain ⟨k0, v0⟩ := p
    by_cases h : k0 = k
    · subst h
      simp only [ctrAdd, if_pos rfl, ctrGet?, ctrGetD]
      split_ifs <;> simp_all [ctrGet?, ctrGetD]
    · simp only [ctrAdd, if_neg h, ctrGet?, ctrGetD]
      split_ifs <;> simp_all [ctrGet?, ctrGetD]

theorem ctrGet?_eq_none_iff (c : Counter) (k : List Int) :
    ctrGet? c k = none ↔ ∀ p ∈ c, p.1 ≠ k := by
  induction c with
  | nil => simp [ctrGet?]
  | cons p c ih =>
    obtain ⟨k0, v0⟩ := p
    by_cases h : k0 = k
    · subst h
      simp [ctrGet?]
    · simp [ctrGet?, h, ih]

theorem ctrGetD_eq_zero_of_none (c : Counter) (k : List Int)
    (h : ctrGet? c k = none) : ctrGetD c k = 0 := by
  simp [ctrGetD, h]

theorem keys_dictSet (d : Counter) (k : List Int) (v : Int) :
    (dictSet d k v).map Prod.fst
      = if ctrGet? d k = none then d.map Prod.fst ++ [k] else d.map Prod.fst := by
  induction d with
  | nil => simp [dictSet, ctrGet?]
  | cons p c ih =>
    obtain ⟨k0, v0⟩ := p
    by_cases h : k0 = k
    · subst h
      simp [dictSet, ctrGet?]
    · simp only [dictSet, if_neg h, ctrGet?, List.map_cons, ih]
      split_ifs <;> simp_all

theorem keys_ctrAdd (d : Counter) (k : List Int) (v : Int) :
    (ctrAdd d k v).map Prod.fst
      = if ctrGet? d k = none then d.map Prod.fst ++ [k] else d.map Prod.fst := by
  induction d with
  | nil => simp [ctrAdd, ctrGet?]
  | cons p c ih =>
    obtain ⟨k0, v0⟩ := p
    by_cases h : k0 = k
    · subst h
      simp [ctrAdd, ctrGet?]
    · simp only [ctrAdd, if_neg h, ctrGet?, List.map_cons, ih]
      split_ifs <;> simp_all

theorem keysNodup_dictSet (d : Counter) (k : List Int) (v : Int)
    (h : KeysNodup d) : KeysNodup (dictSet d k v) := by
  unfold KeysNodup at h ⊢
  rw [keys_dictSet]
  split_ifs with hn
  · have : k ∉ d.map Prod.fst := by
      rw [ctrGet?_eq_none_iff] at hn
      simp only [List.mem_map]
      rintro ⟨p, hp, rfl⟩
      exact hn p hp rfl
    simp [List.nodup_append, h, this]
  · exact h

theorem keysNodup_ctrAdd (d : Counter) (k : List Int) (v : Int)
    (h : KeysNodup d) : KeysNodup (ctrAdd d k v) := by
  unfold KeysNodup at h ⊢
  rw [keys_ctrAdd]
  split_ifs with hn
  · have : k ∉ d.map Prod.fst := by
      rw [ctrGet?_eq_none_iff] at hn
      simp only [List.mem_map]
      rintro ⟨p, hp, rfl⟩
      exact hn p hp rfl
    simp [List.nodup_append, h, this]
  · exact h

theorem ctrGet?_eq_some_of_mem (c : Counter) (k : List Int) (v : Int)
    (hnd : KeysNodup c) (hm : (k, v) ∈ c) : ctrGet? c k = some v := by
  induction c with
  | nil => cases hm
  | cons p c ih =>
    obtain ⟨k0, v0⟩ := p
    rcases List.mem_cons.1 hm with he | ht
    · obtain ⟨rfl, rfl⟩ := Prod.mk.injEq .. ▸ he
      · simp [ctrGet?]
    · have hk0 : k0 ≠ k := by
        intro h
        subst h
        have : k0 ∈ c.map Prod.fst := List.mem_map.2 ⟨(k0, v), ht, rfl⟩
        exact (List.nodup_cons.1 hnd).1 this
      simp only [ctrGet?, if_neg hk0]
      exact ih (List.nodup_cons.1 hnd).2 ht

theorem mem_of_ctrGet?_eq_some (c : Counter) (k : List Int) (v : Int)
    (h : ctrGet? c k = some v) : (k, v) ∈ c := by
  induction c with
  | nil => simp [ctrGet?] at h
  | cons p c ih =>
    obtain ⟨k0, v0⟩ := p
    by_cases hk : k0 = k
    · subst hk
      have h' : v0 = v := by simpa [ctrGet?] using h
      subst h'
      exact List.mem_cons_self _ _
    · simp only [ctrGet?, if_neg hk] at h
      exact List.mem_cons_of_mem _ (ih h)

theorem ctrGetD_ctrUpdate : ∀ (o s : Counter), KeysNodup o → ∀ k,
    ctrGetD (ctrUpdate s o) k = ctrGetD s k + ctrGetD o k := by
  intro o
  induction o with
  | nil => intro s _ k; simp [ctrUpdate, ctrGetD, ctrGet?]
  | cons p o' ih =>
    intro s hnd k
    obtain ⟨k0, v0⟩ := p
    have hnd2 : (k0 :: o'.map Prod.fst).Nodup := hnd
    have hnd' : KeysNodup o' := (List.nodup_cons.1 hnd2).2
    have hk0 : k0 ∉ o'.map Prod.fst := (List.nodup_cons.1 hnd2).1
    have hstep : ctrUpdate s ((k0, v0) :: o') = ctrUpdate (ctrAdd s k0 v0) o' := rfl
    rw [hstep, ih _ hnd' k]
    by_cases h : k0 = k
    · subst h
      have ho' : ctrGet? o' k0 = none := by
        rw [ctrGet?_eq_none_iff]
        intro p hp hpk
        exact hk0 (List.mem_map.2 ⟨p, hp, hpk⟩)
      have e1 : ctrGetD (ctrAdd s k0 v0) k0 = v0 + ctrGetD s k0 := by
        simp [ctrGetD, ctrGet?_ctrAdd]
      have e2 : ctrGetD o' k0 = 0 := ctrGetD_eq_zero_of_none _ _ ho'
      have e3 : ctrGetD ((k0, v0) :: o') k0 = v0 := by simp [ctrGetD, ctrGet?]
      rw [e1, e2, e3]
      omega
    · have e1 : ctrGetD (ctrAdd s k0 v0) k = ctrGetD s k := by
        simp [ctrGetD, ctrGet?_ctrAdd, h]
      have e3 : ctrGetD ((k0, v0) :: o') k = ctrGetD o' k := by
        simp [ctrGetD, ctrGet?, h]
      rw [e1, e3]

theorem ctrGet?_ctrUpdate_eq_none_iff : ∀ (o s : Counter) (k : List Int),
    ctrGet? (ctrUpdate s o) k = none
      ↔ ctrGet? s k = none ∧ ctrGet? o k = none := by
  intro o
  induction o with
  | nil => intro s k; simp [ctrUpdate, ctrGet?]
  | cons p o' ih =>
    intro s k
    obtain ⟨k0, v0⟩ := p
    have hstep : ctrUpdate s ((k0, v0) :: o') = ctrUpdate (ctrAdd s k0 v0) o' := rfl
    rw [hstep, ih]
    by_cases h : k0 = k
    · subst h
      simp [ctrGet?_ctrAdd, ctrGet?]
    · simp [ctrGet?_ctrAdd, h, ctrGet?]

theorem keysNodup_ctrUpdate : ∀ (o s : Counter), KeysNodup s → KeysNodup (ctrUpdate s o) := by
  intro o
  induction o with
  | nil => intro s h; exact h
  | cons p o' ih => intro s h; exact ih _ (keysNodup_ctrAdd _ _ _ h)

theorem ctrGet?_foldl_dictSet (pairs : List (List Int × Int)) :
    ∀ (d : Counter) (k : List Int),
    ctrGet? (pairs.foldl (fun d p => dictSet d p.1 p.2) d) k
      = (((pairs.filter (fun p => decide (p.1 = k))).map Prod.snd).getLast?).or
          (ctrGet? d k) := by
  induction pairs using List.reverseRecOn with
  | nil => intro d k; simp
  | append_singleton ps p ih =>
    intro d k
    rw [List.foldl_append]
    simp only [List.foldl_cons, List.foldl_nil]
    rw [ctrGet?_dictSet]
    by_cases h : p.1 = k
    · rw [if_pos h, List.filter_append, List.filter_cons_of_pos (by simp [h]),
        List.filter_nil, List.map_append, List.map_cons, List.map_nil,
        List.getLast?_concat]
      rfl
    · rw [if_neg h, List.filter_append, List.filter_cons_of_neg (by simp [h]),
        List.filter_nil, List.append_nil, ih]

theorem map_pair_filter (ps : List Row) (k : List Int) :
    ((ps.map (fun x => (pkey x, pcount x))).filter
        (fun p => decide (p.1 = k))).map Prod.snd
      = (ps.filter (fun r => decide (pkey r = k))).map pcount := by
  induction ps with
  | nil => rfl
  | cons r ps ih =>
    by_cases h : pkey r = k <;> simp [h, ih]

theorem ctrGet?_list_to_counter (ps : List Row) (k : List Int) :
    ctrGet? (list_to_counter ps) k
      = ((ps.filter (fun r => decide (pkey r = k))).map pcount).getLast? := by
  rw [list_to_counter, ctrGet?_foldl_dictSet, map_pair_filter]
  simp [ctrGet?, Option.or_none]

theorem ctrGetD_list_to_counter_eq_lastCount (patterns : List Row) (k : List Int) :
    ctrGetD (list_to_counter patterns) k = lastCount patterns k := by
  rw [ctrGetD, ctrGet?_list_to_counter, lastCount, List.getLastD_eq_getLast?]

/-- C4 (amended): with the counter built by `dict(zip(...))`, a duplicated
pattern key is mapped to the trailing count of the *last* row carrying it:
no summing happens inside one chunk's rows. -/
theorem list_to_counter_last_wins (patterns : List Row) (k : List Int) :
    ctrGetD (list_to_counter patterns) k = lastCount patterns k :=
  ctrGetD_list_to_counter_eq_lastCount patterns k

/-- C4 (counterexample): two rows `[1, 2]` and `[1, 3]` share the pattern key
`[1]` with counts 2 and 3; `list_to_counter` maps the key to 3 (the last
count), not to the sum 5. -/
theorem list_to_counter_sum_counterexample :
    ctrGetD (list_to_counter [[1, 2], [1, 3]]) [1] = 3 ∧
    ctrGetD (list_to_counter [[1, 2], [1, 3]]) [1] ≠ 2 + 3 := by decide

theorem keysNodup_foldl_dictSet : ∀ (pairs : List (List Int × Int)) (d : Counter),
    KeysNodup d → KeysNodup (pairs.foldl (fun d p => dictSet d p.1 p.2) d) := by
  intro pairs
  induction pairs with
  | nil => intro d h; exact h
  | cons p ps ih => intro d h; exact ih _ (keysNodup_dictSet _ _ _ h)

theorem keysNodup_list_to_counter (ps : List Row) : KeysNodup (list_to_counter ps) :=
  keysNodup_foldl_dictSet _ _ (by simp [KeysNodup])

theorem filter_pkey_subsingleton (ps : List Row) (h : (ps.map pkey).Nodup)
    (k : List Int) :
    ps.filter (fun r => decide (pkey r = k)) = []
      ∨ ∃ r, ps.filter (fun r => decide (pkey r = k)) = [r] := by
  induction ps with
  | nil => exact Or.inl rfl
  | cons r ps ih =>
    have hh : pkey r ∉ ps.map pkey ∧ (ps.map pkey).Nodup :=
      List.nodup_cons.1 (by simpa using h)
    by_cases hk : pkey r = k
    · right
      refine ⟨r, ?_⟩
      rw [List.filter_cons_of_pos (by simp [hk])]
      have hnil : ps.filter (fun r => decide (pkey r = k)) = [] := by
        rw [List.filter_eq_nil_iff]
        intro a ha
        simp only [decide_eq_true_eq]
        intro hak
        exact hh.1 (List.mem_map.2 ⟨a, ha, by rw [hak, hk]⟩)
      rw [hnil]
    · rw [List.filter_cons_of_neg (by simp [hk])]
      exact ih hh.2

theorem ctrGetD_list_to_counter_of_nodup (ps : List Row)
    (h : (ps.map pkey).Nodup) (k : List Int) :
    ctrGetD (list_to_counter ps) k = chunkTotal ps k := by
  rw [ctrGetD_list_to_counter_eq_lastCount, lastCount, chunkTotal]
  rcases filter_pkey_subsingleton ps h k with hf | ⟨r, hf⟩ <;> rw [hf] <;> simp

theorem ctrGet?_list_to_counter_eq_none_iff (c : List Row) (k : List Int) :
    ctrGet? (list_to_counter c) k = none ↔ ∀ r ∈ c, pkey r ≠ k := by
  rw [ctrGet?_list_to_counter]
  simp [List.getLast?_eq_none_iff, List.filter_eq_nil_iff]

theorem ctrGetD_foldl_update : ∀ (batch : List (List Row)) (acc : Counter),
    (∀ c ∈ batch, (c.map pkey).Nodup) → ∀ k,
    ctrGetD (batch.foldl (fun c ps => ctrUpdate c (list_to_counter ps)) acc) k
      = ctrGetD acc k + totalCount batch k := by
  intro batch
  induction batch with
  | nil => intro acc _ k; simp [totalCount]
  | cons c batch ih =>
    intro acc h k
    have h1 : (c.map pkey).Nodup := h c (List.mem_cons_self _ _)
    have h2 : ∀ c' ∈ batch, (c'.map pkey).Nodup :=
      fun c' hc' => h c' (List.mem_cons_of_mem _ hc')
    rw [List.foldl_cons, ih _ h2 k,
      ctrGetD_ctrUpdate _ _ (keysNodup_list_to_counter c) k,
      ctrGetD_list_to_counter_of_nodup c h1 k]
    simp only [totalCount, List.map_cons, List.sum_cons]
    omega

theorem ctrGet?_foldl_update_eq_none_iff : ∀ (batch : List (List Row)) (acc : Counter)
    (k : List Int),
    ctrGet? (batch.foldl (fun c ps => ctrUpdate c (list_to_counter ps)) acc) k = none
      ↔ ctrGet? acc k = none ∧ ∀ c ∈ batch, ∀ r ∈ c, pkey r ≠ k := by
  intro batch
  induction batch with
  | nil => intro acc k; simp
  | cons c batch ih =>
    intro acc k
    rw [List.foldl_cons, ih, ctrGet?_ctrUpdate_eq_none_iff,
      ctrGet?_list_to_counter_eq_none_iff]
    simp only [List.forall_mem_cons]
    tauto

theorem keysNodup_aggregateCounter (batch : List (List Row)) :
    KeysNodup (aggregateCounter batch) := by
  have : ∀ (b : List (List Row)) (acc : Counter), KeysNodup acc →
      KeysNodup (b.foldl (fun c ps => ctrUpdate c (list_to_counter ps)) acc) := by
    intro b
    induction b with
    | nil => intro acc h; exact h
    | cons c b ih => intro acc h; exact ih _ (keysNodup_ctrUpdate _ _ h)
  exact this batch [] (by simp [KeysNodup])

theorem ctrGetD_aggregateCounter (batch : List (List Row))
    (h : ∀ c ∈ batch, (c.map pkey).Nodup) (k : List Int) :
    ctrGetD (aggregateCounter batch) k = totalCount batch k := by
  rw [aggregateCounter, ctrGetD_foldl_update batch [] h k]
  simp [ctrGetD, ctrGet?]

theorem ctrGet?_aggregateCounter_eq_none_iff (batch : List (List Row)) (k : List Int) :
    ctrGet? (aggregateCounter batch) k = none ↔ ¬ seenIn batch k := by
  rw [aggregateCounter, ctrGet?_foldl_update_eq_none_iff batch [] k]
  simp only [ctrGet?, true_and, seenIn]
  push_neg
  constructor
  · intro h c hc r hr
    exact h c hc r hr
  · intro h c hc r hr
    exact h c hc r hr

theorem totalCount_nonneg (batch : List (List Row))
    (hpos : ∀ c ∈ batch, ∀ r ∈ c, 0 ≤ pcount r) (k : List Int) :
    0 ≤ totalCount batch k := by
  apply List.sum_nonneg
  intro x hx
  obtain ⟨c, hc, rfl⟩ := List.mem_map.1 hx
  apply List.sum_nonneg
  intro y hy
  obtain ⟨r, hr, rfl⟩ := List.mem_map.1 hy
  exact hpos c hc r (List.mem_of_mem_filter hr)

theorem pairToRow_injective :
    Function.Injective (fun p : List Int × Int => p.1 ++ [p.2]) := by
  rintro ⟨a, b⟩ ⟨c, d⟩ h
  simp only at h
  have h1 : a = c := by
    have := congrArg List.dropLast h
    simpa using this
  have h2 : b = d := by
    have := congrArg (fun l => l.getLastD 0) h
    simpa using this
  simp [h1, h2]

theorem countRow_perm {l l' : List Row} (h : l.Perm l') (r : Row) :
    countRow r l = countRow r l' := by
  unfold countRow
  rw [← List.countP_eq_length_filter, ← List.countP_eq_length_filter]
  exact h.countP_eq _

theorem countRow_eq_one {l : List Row} {r : Row} (hnd : l.Nodup) (hm : r ∈ l) :
    countRow r l = 1 := by
  induction l with
  | nil => cases hm
  | cons x t ih =>
    rcases List.mem_cons.1 hm with rfl | hmt
    · have hx : t.filter (fun y => decide (y = r)) = [] := by
        rw [List.filter_eq_nil_iff]
        intro a ha
        simp only [decide_eq_true_eq]
        rintro rfl
        exact (List.nodup_cons.1 hnd).1 ha
      unfold countRow
      rw [List.filter_cons_of_pos (by simp), hx]
      rfl
    · have hxr : x ≠ r := by
        rintro rfl
        exact (List.nodup_cons.1 hnd).1 hmt
      unfold countRow
      rw [List.filter_cons_of_neg (by simp [hxr])]
      exact ih (List.nodup_cons.1 hnd).2 hmt

/-- C1: under pairwise-distinct keys and non-negative counts per chunk,
`aggregate_patterns` emits exactly one row per key whose summed count reaches
`min_row_count`, carrying exactly that sum; keys below threshold are absent;
with `min_row_count = 0` every key seen in any chunk is retained. -/
theorem aggregate_patterns_correct (batch : List (List Row)) (min_row_count : Int)
    (hkeys : ∀ c ∈ batch, (c.map pkey).Nodup)
    (hpos : ∀ c ∈ batch, ∀ r ∈ c, 0 ≤ pcount r) :
    (∀ r ∈ aggregate_patterns batch min_row_count,
        r = pkey r ++ [totalCount batch (pkey r)] ∧ seenIn batch (pkey r) ∧
          min_row_count ≤ totalCount batch (pkey r)) ∧
    (∀ k, seenIn batch k → min_row_count ≤ totalCount batch k →
        countRow (k ++ [totalCount batch k])
          (aggregate_patterns batch min_row_count) = 1) ∧
    (∀ k, seenIn batch k → totalCount batch k < min_row_count →
        ∀ v, (k ++ [v]) ∉ aggregate_patterns batch min_row_count) ∧
    (min_row_count = 0 → ∀ k, seenIn batch k →
        countRow (k ++ [totalCount batch k])
          (aggregate_patterns batch min_row_count) = 1) := by
  have hnd : KeysNodup (aggregateCounter batch) := keysNodup_aggregateCounter batch
  have hval : ∀ k, ctrGetD (aggregateCounter batch) k = totalCount batch k :=
    ctrGetD_aggregateCounter batch hkeys
  have hnone : ∀ k, ctrGet? (aggregateCounter batch) k = none ↔ ¬ seenIn batch k :=
    ctrGet?_aggregateCounter_eq_none_iff batch
  have hperm : (aggregate_patterns batch min_row_count).Perm
      (((aggregateCounter batch).filter
          (fun p => ! decide (p.2 < min_row_count))).map (fun p => p.1 ++ [p.2])) :=
    (sort_pattern_perm _).trans (sort_pattern_perm _)
  have hmemL : ∀ r, r ∈ aggregate_patterns batch min_row_count ↔
      ∃ p, p ∈ aggregateCounter batch ∧ ¬ p.2 < min_row_count ∧ r = p.1 ++ [p.2] := by
    intro r
    rw [hperm.mem_iff]
    simp only [List.mem_map, List.mem_filter, Bool.not_eq_eq_eq_not, Bool.not_true,
      decide_eq_false_iff_not]
    constructor
    · rintro ⟨p, ⟨hp, hlt⟩, rfl⟩
      exact ⟨p, hp, hlt, rfl⟩
    · rintro ⟨p, hp, hlt, rfl⟩
      exact ⟨p, ⟨hp, hlt⟩, rfl⟩
  have hseen_of_some : ∀ k v, ctrGet? (aggregateCounter batch) k = some v →
      seenIn batch k := by
    intro k v hv
    by_contra hcon
    rw [← hnone] at hcon
    rw [hv] at hcon
    cases hcon
  have hsome_of_seen : ∀ k, seenIn batch k →
      ctrGet? (aggregateCounter batch) k = some (totalCount batch k) := by
    intro k hseen
    rcases hg : ctrGet? (aggregateCounter batch) k with _ | v
    · exact absurd ((hnone k).1 hg) (not_not.2 hseen)
    · have : ctrGetD (aggregateCounter batch) k = v := by simp [ctrGetD, hg]
      rw [← hval k, this]
  have main2 : ∀ k, seenIn batch k → min_row_count ≤ totalCount batch k →
      countRow (k ++ [totalCount batch k])
        (aggregate_patterns batch min_row_count) = 1 := by
    intro k hseen hge
    have hv := hsome_of_seen k hseen
    have hmem : (k, totalCount batch k) ∈ aggregateCounter batch :=
      mem_of_ctrGet?_eq_some _ _ _ hv
    have hmemf : (k, totalCount batch k) ∈
        (aggregateCounter batch).filter (fun p => ! decide (p.2 < min_row_count)) :=
      List.mem_filter.2 ⟨hmem, by simp [not_lt.2 hge]⟩
    have hndf : ((aggregateCounter batch).filter
        (fun p => ! decide (p.2 < min_row_count))).Nodup :=
      (List.Nodup.of_map _ hnd).filter _
    have hndL : (((aggregateCounter batch).filter
        (fun p => ! decide (p.2 < min_row_count))).map
          (fun p => p.1 ++ [p.2])).Nodup :=
      hndf.map pairToRow_injective
    have hmemL2 : (k ++ [totalCount batch k]) ∈
        ((aggregateCounter batch).filter
          (fun p => ! decide (p.2 < min_row_count))).map (fun p => p.1 ++ [p.2]) :=
      List.mem_map.2 ⟨(k, totalCount batch k), hmemf, rfl⟩
    rw [countRow_perm hperm]
    exact countRow_eq_one hndL hmemL2
  refine ⟨?_, main2, ?_, ?_⟩
  · intro r hr
    obtain ⟨⟨k, v⟩, hp, hge, rfl⟩ := (hmemL r).1 hr
    have hv : ctrGet? (aggregateCounter batch) k = some v :=
      ctrGet?_eq_some_of_mem _ _ _ hnd hp
    have hvt : v = totalCount batch k := by
      have : ctrGetD (aggregateCounter batch) k = v := by simp [ctrGetD, hv]
      rw [← this, hval k]
    have hpk : pkey (k ++ [v]) = k := by simp [pkey]
    rw [hpk]
    exact ⟨by rw [← hvt], hseen_of_some k v hv, hvt ▸ not_lt.1 hge⟩
  · intro k hseen hlt v hvmem
    obtain ⟨⟨k', v'⟩, hp, hge, heq⟩ := (hmemL _).1 hvmem
    have hk : k' = k := by
      have := congrArg List.dropLast heq
      simpa [pkey] using this.symm
    have hv' : v' = v := by
      have := congrArg (fun l => List.getLastD l 0) heq
      simpa using this.symm
    rw [hk, hv'] at hp
    rw [hv'] at hge
    have hv : ctrGet? (aggregateCounter batch) k = some v :=
      ctrGet?_eq_some_of_mem _ _ _ hnd hp
    have hvt : v = totalCount batch k := by
      have : ctrGetD (aggregateCounter batch) k = v := by simp [ctrGetD, hv]
      rw [← this, hval k]
    rw [hvt] at hge
    exact hge hlt
  · intro h0 k hseen
    exact main2 k hseen (h0 ▸ totalCount_nonneg batch hpos k)

/-- Witness for C1 on the spec's own example: chunk A gives pattern `[1, 2]`
count 3, chunk B gives the same pattern count 2, threshold 4. -/
theorem aggregate_patterns_correct_witness :
    ((∀ c ∈ [[[1, 2, 3]], [[1, 2, 2]]], (List.map pkey c).Nodup) ∧
      (∀ c ∈ [[[1, 2, 3]], [[1, 2, 2]]], ∀ r ∈ c, 0 ≤ pcount r)) ∧
    ((∀ r ∈ aggregate_patterns [[[1, 2, 3]], [[1, 2, 2]]] 4,
        r = pkey r ++ [totalCount [[[1, 2, 3]], [[1, 2, 2]]] (pkey r)] ∧
          seenIn [[[1, 2, 3]], [[1, 2, 2]]] (pkey r) ∧
          4 ≤ totalCount [[[1, 2, 3]], [[1, 2, 2]]] (pkey r)) ∧
    (∀ k, seenIn [[[1, 2, 3]], [[1, 2, 2]]] k →
        4 ≤ totalCount [[[1, 2, 3]], [[1, 2, 2]]] k →
        countRow (k ++ [totalCount [[[1, 2, 3]], [[1, 2, 2]]] k])
          (aggregate_patterns [[[1, 2, 3]], [[1, 2, 2]]] 4) = 1) ∧
    (∀ k, seenIn [[[1, 2, 3]], [[1, 2, 2]]] k →
        totalCount [[[1, 2, 3]], [[1, 2, 2]]] k < 4 →
        ∀ v, (k ++ [v]) ∉ aggregate_patterns [[[1, 2, 3]], [[1, 2, 2]]] 4) ∧
    ((4 : Int) = 0 → ∀ k, seenIn [[[1, 2, 3]], [[1, 2, 2]]] k →
        countRow (k ++ [totalCount [[[1, 2, 3]], [[1, 2, 2]]] k])
          (aggregate_patterns [[[1, 2, 3]], [[1, 2, 2]]] 4) = 1)) :=
  ⟨⟨by decide, by decide⟩,
    aggregate_patterns_correct [[[1, 2, 3]], [[1, 2, 2]]] 4 (by decide) (by decide)⟩

/-- C7: `validate_min_frequency` raises a type error iff the threshold is
neither an int nor a float; for a float `q` it raises a value error iff
`q ≤ 0`, `q > 1` or `q * num_rows < 1`; for an int `z` iff `z < 1` or
`z > num_rows`; in all remaining cases it returns without raising. -/
theorem validate_min_frequency_correct (num_rows : ℤ) (q : ℚ) (z : ℤ) :
    errClass (validate_min_frequency num_rows (.f q))
      = (if q ≤ 0 ∨ 1 < q ∨ q * (num_rows : ℚ) < 1 then 2 else 0) ∧
    errClass (validate_min_frequency num_rows (.i z))
      = (if z < 1 ∨ num_rows < z then 2 else 0) ∧
    errClass (validate_min_frequency num_rows .other) = 1 := by
  refine ⟨?_, ?_, rfl⟩
  · by_cases h1 : 0 < q
    · by_cases h2 : q ≤ 1
      · by_cases h3 : (1 : ℚ) ≤ q * (num_rows : ℚ)
        · simp [validate_min_frequency, pySeq, check_true, h1, h2, h3, errClass,
            not_lt.2 h3, not_lt.2 h2, not_le.2 h1]
        · simp [validate_min_frequency, pySeq, check_true, h1, h2, h3, errClass,
            not_le.1 h3]
      · simp [validate_min_frequency, pySeq, check_true, h1, h2, errClass, not_le.1 h2]
    · simp [validate_min_frequency, pySeq, check_true, h1, errClass, not_lt.1 h1]
  · by_cases h1 : 0 < z
    · by_cases h2 : z ≤ num_rows
      · simp [validate_min_frequency, pySeq, check_true, h1, h2, errClass,
          show ¬ z < 1 by omega, show ¬ num_rows < z by omega]
      · simp [validate_min_frequency, pySeq, check_true, h1, h2, errClass,
          show num_rows < z by omega]
    · simp [validate_min_frequency, pySeq, check_true, h1, errClass,
        show z < 1 by omega]

/-- C2: for `num_rows ≥ 1` and a positive float threshold, the updated
threshold is at least `1/num_rows`; when `num_rows = 1` it is the integer
ceiling of the threshold, and otherwise `max(q * factor, 1/num_rows)`. -/
theorem update_min_frequency_lower_bound (num_rows : ℤ) (q factor : ℚ)
    (hn : 1 ≤ num_rows) (hq : 0 < q) :
    (1 : ℚ) / (num_rows : ℚ) ≤ (update_min_frequency num_rows (.f q) factor).toQ ∧
    (num_rows = 1 → update_min_frequency num_rows (.f q) factor = .i ⌈q⌉) ∧
    (num_rows ≠ 1 →
      update_min_frequency num_rows (.f q) factor
        = .f (max (q * factor) (1 / (num_rows : ℚ)))) := by
  by_cases h : num_rows = 1
  · subst h
    refine ⟨?_, fun _ => rfl, fun hne => absurd rfl hne⟩
    have hceil : (1 : ℤ) ≤ ⌈q⌉ := Int.ceil_pos.2 hq
    have : ((1 : ℤ) : ℚ) ≤ ((⌈q⌉ : ℤ) : ℚ) := Int.cast_le.2 hceil
    simpa [update_min_frequency, PyNum.toQ] using this
  · refine ⟨?_, fun h1 => absurd h1 h, fun _ => by simp [update_min_frequency, h]⟩
    simp only [update_min_frequency, h, if_false, PyNum.toQ]
    exact le_max_right _ _

/-- Witness for C2 at `num_rows = 4`, `q = 1/2`, `factor = 1/2`. -/
theorem update_min_frequency_lower_bound_witness :
    ((1 : ℤ) ≤ 4 ∧ (0 : ℚ) < 1 / 2) ∧
    ((1 : ℚ) / ((4 : ℤ) : ℚ) ≤ (update_min_frequency 4 (.f (1 / 2)) (1 / 2)).toQ ∧
      ((4 : ℤ) = 1 → update_min_frequency 4 (.f (1 / 2)) (1 / 2) = .i ⌈(1 / 2 : ℚ)⌉) ∧
      ((4 : ℤ) ≠ 1 →
        update_min_frequency 4 (.f (1 / 2)) (1 / 2)
          = .f (max ((1 / 2 : ℚ) * (1 / 2)) (1 / ((4 : ℤ) : ℚ))))) :=
  ⟨⟨by norm_num, by norm_num⟩,
    update_min_frequency_lower_bound 4 (1 / 2) (1 / 2) (by norm_num) (by norm_num)⟩

/-- C10: a threshold that is not a float (an int, or any other object) is
returned unchanged by `update_min_frequency`: the batch adjustment applies only
to float thresholds. -/
theorem update_min_frequency_non_float (num_rows : ℤ) (lb : ℚ) (z : ℤ) :
    update_min_frequency num_rows (.i z) lb = .i z ∧
    update_min_frequency num_rows .other lb = .other :=
  ⟨rfl, rfl⟩

/-- C6: `validate_min_frequency_with_batch` raises a type error whenever the
threshold is not a float and `num_rows > batch_size`; otherwise it validates
the threshold against `batch_size` and, when `num_rows % batch_size > 1`, also
against that remainder; each such value-error failure is re-raised with a
message naming the offending chunk size. -/
theorem validate_min_frequency_with_batch_correct (num_rows batch_size : ℤ) (mf : PyNum) :
    (mf.isFloat = false → batch_size < num_rows →
      ∃ m, validate_min_frequency_with_batch num_rows batch_size mf
        = .error (.typeError m)) ∧
    (mf.isFloat = true ∨ num_rows ≤ batch_size →
      (errClass (validate_min_frequency batch_size mf) = 2 →
        validate_min_frequency_with_batch num_rows batch_size mf
          = .error (.valueError (chunkMsg mf batch_size))) ∧
      (validate_min_frequency batch_size mf = .ok () → 1 < num_rows % batch_size →
        errClass (validate_min_frequency (num_rows % batch_size) mf) = 2 →
        validate_min_frequency_with_batch num_rows batch_size mf
          = .error (.valueError (chunkMsg mf (num_rows % batch_size)))) ∧
      (validate_min_frequency batch_size mf = .ok () →
        (num_rows % batch_size ≤ 1 ∨
          validate_min_frequency (num_rows % batch_size) mf = .ok ()) →
        validate_min_frequency_with_batch num_rows batch_size mf = .ok ())) ∧
    (∀ size : ℤ, ∃ pre post, chunkMsg mf size = pre ++ toString size ++ post) := by
  have hguard : ∀ (h : ¬ (mf.isFloat = false ∧ batch_size < num_rows)),
      validate_min_frequency_with_batch num_rows batch_size mf
        = (match validate_min_frequency batch_size mf with
          | .error (.valueError _) => .error (.valueError (chunkMsg mf batch_size))
          | .error e => .error e
          | .ok _ =>
            if 1 < num_rows % batch_size then
              match validate_min_frequency (num_rows % batch_size) mf with
              | .error (.valueError _) =>
                  .error (.valueError (chunkMsg mf (num_rows % batch_size)))
              | .error e => .error e
              | .ok _ => .ok ()
            else .ok ()) := by
    intro h
    unfold validate_min_frequency_with_batch
    rw [if_neg h]
  refine ⟨?_, ?_, fun size => ⟨chunkMsgPre mf, "!", rfl⟩⟩
  · intro hf hlt
    refine ⟨"Minimum frequency should be float (as a row percentage) when Seq2Pat runs on batches.", ?_⟩
    unfold validate_min_frequency_with_batch
    rw [if_pos ⟨hf, hlt⟩]
  · intro hcase
    have hng : ¬ (mf.isFloat = false ∧ batch_size < num_rows) := by
      rcases hcase with h | h
      · rintro ⟨h1, -⟩
        rw [h] at h1
        exact Bool.noConfusion h1
      · rintro ⟨-, h2⟩
        exact absurd h (not_le.2 h2)
    refine ⟨?_, ?_, ?_⟩
    · intro h2
      rw [hguard hng]
      rcases hv : validate_min_frequency batch_size mf with e | u
      · rw [hv] at h2
        cases e with
        | typeError m => simp [errClass] at h2
        | valueError m => rfl
      · rw [hv] at h2
        simp [errClass] at h2
    · intro hok hrem h2
      rw [hguard hng, hok]
      rw [if_pos hrem]
      rcases hv : validate_min_frequency (num_rows % batch_size) mf with e | u
      · rw [hv] at h2
        cases e with
        | typeError m => simp [errClass] at h2
        | valueError m => rfl
      · rw [hv] at h2
        simp [errClass] at h2
    · intro hok hrest
      rw [hguard hng, hok]
      rcases hrest with h | h
      · simp [not_lt.2 h]
      · by_cases hrem : 1 < num_rows % batch_size
        · rw [if_pos hrem, h]
        · simp [hrem]

/-- Witness for C6 at `num_rows = 5`, `batch_size = 3`, threshold `2/5`:
valid for the full batch of 3 but invalid for the remainder chunk of size 2,
so the re-raised error names chunk size `5 % 3 = 2`. -/
theorem validate_min_frequency_with_batch_correct_witness :
    validate_min_frequency_with_batch 5 3 (.f (2 / 5))
      = .error (.valueError (chunkMsg (.f (2 / 5)) 2)) := by
  have hb : validate_min_frequency 3 (.f (2 / 5)) = .ok () := by
    have h1 : (0 : ℚ) < 2 / 5 := by norm_num
    have h2 : (2 / 5 : ℚ) ≤ 1 := by norm_num
    have h3 : (1 : ℚ) ≤ 2 / 5 * 3 := by norm_num
    simp [validate_min_frequency, pySeq, check_true, h1, h2, h3]
  have hr : errClass (validate_min_frequency ((5 : ℤ) % 3) (.f (2 / 5))) = 2 := by
    have h1 : (0 : ℚ) < 2 / 5 := by norm_num
    have h2 : (2 / 5 : ℚ) ≤ 1 := by norm_num
    have h3 : ¬ ((1 : ℚ) ≤ 2 / 5 * 2) := by norm_num
    simp [validate_min_frequency, pySeq, check_true, h1, h2, h3, errClass]
  exact ((validate_min_frequency_with_batch_correct 5 3 (.f (2 / 5))).2.1
    (Or.inl rfl)).2.1 hb (by decide) hr

theorem drawPermFuel_perm : ∀ (fuel : Nat) (l : List Nat), l.length ≤ fuel →
    ∀ s, (drawPermFuel fuel s l).Perm l := by
  intro fuel
  induction fuel with
  | zero =>
    intro l hl s
    have : l = [] := List.length_eq_zero.1 (Nat.le_zero.1 hl)
    subst this
    exact List.Perm.refl _
  | succ n ih =>
    intro l hl s
    cases l with
    | nil => exact List.Perm.refl _
    | cons a t =>
      rw [drawPermFuel]
      have hx : (a :: t).get ⟨s % (a :: t).length, Nat.mod_lt _ (Nat.succ_pos _)⟩
          ∈ a :: t := List.get_mem _ _ _
      have hlen : ((a :: t).erase
          ((a :: t).get ⟨s % (a :: t).length, Nat.mod_lt _ (Nat.succ_pos _)⟩)).length
            ≤ n := by
        rw [List.length_erase_of_mem hx]
        simp only [List.length_cons] at hl ⊢
        omega
      exact ((ih _ hlen (lcgNext s)).cons _).trans (List.perm_cons_erase hx).symm

theorem shuffleIndices_perm (seed n : Nat) :
    (shuffleIndices seed n).Perm (List.range n) :=
  drawPermFuel_perm _ _ le_rfl seed

theorem map_getD_range (l : List (List Int)) :
    (List.range l.length).map (fun i => l.getD i []) = l := by
  induction l with
  | nil => rfl
  | cons x t ih =>
    rw [List.length_cons, List.range_succ_eq_map, List.map_cons, List.map_map]
    have hcomp : ((fun i => (x :: t).getD i []) ∘ Nat.succ) = (fun i => t.getD i []) := by
      funext i
      rfl
    rw [hcomp, ih]
    rfl

theorem forall₂_mem_right {α β : Type} {R : α → β → Prop} :
    ∀ {l₁ : List α} {l₂ : List β}, List.Forall₂ R l₁ l₂ →
      ∀ b ∈ l₂, ∃ a ∈ l₁, R a b := by
  intro l₁ l₂ h
  induction h with
  | nil => intro b hb; cases hb
  | cons hR hFa ih =>
    intro b hb
    rcases List.mem_cons.1 hb with rfl | hb'
    · exact ⟨_, List.mem_cons_self _ _, hR⟩
    · obtain ⟨a, ha, hr⟩ := ih b hb'
      exact ⟨a, List.mem_cons_of_mem _ ha, hr⟩

theorem shuffleCsMap_spec (indices : List Nat) : ∀ (st : Store) (csm : CsMap),
    (∃ ext, (shuffleCsMap indices st csm).1 = st ++ ext) ∧
    List.Forall₂ (fun (p q : String × Nat) =>
        q.1 = p.1 ∧ st.length ≤ q.2 ∧ q.2 < (shuffleCsMap indices st csm).1.length ∧
        (p.2 < st.length →
          ((shuffleCsMap indices st csm).1.getD q.2 ⟨[]⟩).values
            = indices.map (fun i => ((st.getD p.2 ⟨[]⟩).values.getD i 0))))
      csm (shuffleCsMap indices st csm).2 := by
  intro st csm
  induction csm generalizing st with
  | nil => exact ⟨⟨[], by simp [shuffleCsMap]⟩, List.Forall₂.nil⟩
  | cons p rest ih =>
    obtain ⟨cs, addr⟩ := p
    simp only [shuffleCsMap]
    obtain ⟨⟨ext', hext⟩, hfa⟩ :=
      ih (st ++ [⟨indices.map (fun i => ((st.getD addr ⟨[]⟩).values.getD i 0))⟩])
    constructor
    · exact ⟨⟨indices.map (fun i => ((st.getD addr ⟨[]⟩).values.getD i 0))⟩ :: ext',
        by rw [hext]; simp⟩
    · refine List.Forall₂.cons ⟨rfl, le_refl _, ?_, fun _ => ?_⟩ ?_
      · rw [hext]
        simp only [List.length_append, List.length_cons, List.length_nil]
        omega
      · rw [hext, List.getD_append _ _ _ _ (by simp)]
        rw [List.getD_append_right _ _ _ _ (le_refl _)]
        simp
      · apply hfa.imp
        rintro a b ⟨h1, h2, h3, h4⟩
        refine ⟨h1, le_trans (by simp) h2, h3, fun hlt => ?_⟩
        rw [h4 (by simp only [List.length_append, List.length_cons,
          List.length_nil]; omega)]
        rw [List.getD_append _ _ _ _ hlt]

theorem shuffleAttrMap_spec (indices : List Nat) : ∀ (st : Store) (am : AttrMap),
    (∃ ext, (shuffleAttrMap indices st am).1 = st ++ ext) ∧
    List.Forall₂ (fun (a b : String × CsMap) =>
        b.1 = a.1 ∧
        List.Forall₂ (fun (p q : String × Nat) =>
            q.1 = p.1 ∧ st.length ≤ q.2 ∧
              q.2 < (shuffleAttrMap indices st am).1.length ∧
            (p.2 < st.length →
              ((shuffleAttrMap indices st am).1.getD q.2 ⟨[]⟩).values
                = indices.map (fun i => ((st.getD p.2 ⟨[]⟩).values.getD i 0))))
          a.2 b.2)
      am (shuffleAttrMap indices st am).2 := by
  intro st am
  induction am generalizing st with
  | nil => exact ⟨⟨[], by simp [shuffleAttrMap]⟩, List.Forall₂.nil⟩
  | cons a rest ih =>
    obtain ⟨attr, csm⟩ := a
    simp only [shuffleAttrMap]
    obtain ⟨⟨e1, he1⟩, hcs⟩ := shuffleCsMap_spec indices st csm
    obtain ⟨⟨e2, he2⟩, hrest⟩ := ih (shuffleCsMap indices st csm).1
    have hst1 : st.length ≤ (shuffleCsMap indices st csm).1.length := by
      rw [he1]; simp
    constructor
    · exact ⟨e1 ++ e2, by rw [he2, he1, List.append_assoc]⟩
    · refine List.Forall₂.cons ⟨rfl, ?_⟩ ?_
      · apply hcs.imp
        rintro p q ⟨h1, h2, h3, h4⟩
        refine ⟨h1, h2, ?_, fun hlt => ?_⟩
        · rw [he2]
          simp only [List.length_append]
          omega
        · rw [he2, List.getD_append _ _ _ _ h3]
          exact h4 hlt
      · apply hrest.imp
        rintro a b ⟨h1, h2⟩
        refine ⟨h1, ?_⟩
        apply h2.imp
        rintro p q ⟨g1, g2, g3, g4⟩
        refine ⟨g1, le_trans hst1 g2, g3, fun hlt => ?_⟩
        rw [g4 (lt_of_lt_of_le hlt hst1)]
        rw [he1, List.getD_append _ _ _ _ hlt]

/-- C5 (counterexample): `shuffle_data` does *not* leave the original
attribute-to-constraint mapping pointing at the original constraint objects:
it reassigns `attr_to_cs[attr][cs]` in place, so the post-state of the
caller's mapping (returned unchanged by the call) differs from the input
mapping. -/
theorem shuffle_data_frame_counterexample :
    (shuffle_data [⟨[10, 20]⟩] [[1], [2]] [("a", [("c", 0)])] 0).2.2
      ≠ [("a", [("c", 0)])] := by decide

/-- C5 (amended): `shuffle_data` never modifies the pre-existing constraint
objects (the store is only extended) and every constraint installed in the
returned - in-place updated - mapping is a freshly allocated deep copy, at an
address outside the original store, hence sharing no state with any original
constraint; the original sequence list is only read, never written. -/
theorem shuffle_data_frame (st : Store) (sequences : List (List Int))
    (attr_to_cs : AttrMap) (seed : Nat) :
    ((shuffle_data st sequences attr_to_cs seed).1.take st.length = st) ∧
    (∀ a ∈ (shuffle_data st sequences attr_to_cs seed).2.2, ∀ p ∈ a.2,
        st.length ≤ p.2) := by
  obtain ⟨⟨ext, hext⟩, hfa⟩ :=
    shuffleAttrMap_spec (shuffleIndices seed sequences.length) st attr_to_cs
  constructor
  · show (shuffleAttrMap (shuffleIndices seed sequences.length) st attr_to_cs).1.take
        st.length = st
    rw [hext, List.take_left]
  · intro a ha p hp
    obtain ⟨a0, _, _, hinner⟩ := forall₂_mem_right hfa a ha
    obtain ⟨p0, _, _, h2, -⟩ := forall₂_mem_right hinner p hp
    exact h2

/-- Witness for C5 (amended) at a one-constraint store: the original
constraint at address 0 survives unchanged and the installed copy lives at
the fresh address 1. -/
theorem shuffle_data_frame_witness :
    ((shuffle_data [⟨[10, 20]⟩] [[1], [2]] [("a", [("c", 0)])] 0).1.take 1
        = [⟨[10, 20]⟩]) ∧ (1 : Nat) ≤ 1 :=
  ⟨(shuffle_data_frame [⟨[10, 20]⟩] [[1], [2]] [("a", [("c", 0)])] 0).1,
    (shuffle_data_frame [⟨[10, 20]⟩] [[1], [2]] [("a", [("c", 0)])] 0).2
      ("a", [("c", 1)]) (by decide) ("c", 1) (by decide)⟩

/-- C8: `shuffle_data` is deterministic in its inputs, draws one index
permutation of `range(len(sequences))`, reorders the sequence list by it (so
the output is a permutation of the input), and reorders every valid
constraint's value list by the *same* index list, so the value formerly at
index `i` sits at the same output position as sequence `i` and the new value
list again has one entry per sequence. -/
theorem shuffle_data_alignment (st : Store) (sequences : List (List Int))
    (attr_to_cs : AttrMap) (seed : Nat) :
    (∀ st2 seqs2 m2 seed2, st = st2 → sequences = seqs2 → attr_to_cs = m2 →
        seed = seed2 →
        shuffle_data st sequences attr_to_cs seed
          = shuffle_data st2 seqs2 m2 seed2) ∧
    (shuffleIndices seed sequences.length).Perm (List.range sequences.length) ∧
    (shuffle_data st sequences attr_to_cs seed).2.1
      = (shuffleIndices seed sequences.length).map (fun i => sequences.getD i []) ∧
    ((shuffle_data st sequences attr_to_cs seed).2.1).Perm sequences ∧
    List.Forall₂ (fun (a b : String × CsMap) =>
        b.1 = a.1 ∧
        List.Forall₂ (fun (p q : String × Nat) =>
            q.1 = p.1 ∧
            (p.2 < st.length →
              ((shuffle_data st sequences attr_to_cs seed).1.getD q.2 ⟨[]⟩).values
                  = (shuffleIndices seed sequences.length).map
                      (fun i => ((st.getD p.2 ⟨[]⟩).values.getD i 0)) ∧
              ((shuffle_data st sequences attr_to_cs seed).1.getD q.2
                  ⟨[]⟩).values.length = sequences.length))
          a.2 b.2)
      attr_to_cs (shuffle_data st sequences attr_to_cs seed).2.2 := by
  have hperm := shuffleIndices_perm seed sequences.length
  have hlen : (shuffleIndices seed sequences.length).length = sequences.length := by
    rw [hperm.length_eq, List.length_range]
  refine ⟨?_, hperm, rfl, ?_, ?_⟩
  · rintro st2 seqs2 m2 seed2 rfl rfl rfl rfl
    rfl
  · show ((shuffleIndices seed sequences.length).map
        (fun i => sequences.getD i [])).Perm sequences
    have := hperm.map (fun i => sequences.getD i [])
    rw [map_getD_range sequences] at this
    exact this
  · obtain ⟨-, hfa⟩ :=
      shuffleAttrMap_spec (shuffleIndices seed sequences.length) st attr_to_cs
    apply hfa.imp
    rintro a b ⟨h1, h2⟩
    refine ⟨h1, ?_⟩
    apply h2.imp
    rintro p q ⟨g1, -, -, g4⟩
    refine ⟨g1, fun hlt => ⟨g4 hlt, ?_⟩⟩
    show (List.getD (shuffleAttrMap (shuffleIndices seed sequences.length) st
        attr_to_cs).1 q.2 ⟨[]⟩).values.length = sequences.length
    rw [g4 hlt, List.length_map, hlen]

/-- Witness for C8 at a concrete store, sequences, mapping and seed. -/
theorem shuffle_data_alignment_witness :
    shuffle_data [⟨[10, 20]⟩] [[1], [2]] [("a", [("c", 0)])] 0
      = shuffle_data [⟨[10, 20]⟩] [[1], [2]] [("a", [("c", 0)])] 0 ∧
    ((shuffle_data [⟨[10, 20]⟩] [[1], [2]] [("a", [("c", 0)])] 0).2.1).Perm
      [[1], [2]] :=
  ⟨(shuffle_data_alignment [⟨[10, 20]⟩] [[1], [2]] [("a", [("c", 0)])] 0).1
      _ _ _ _ rfl rfl rfl rfl,
    (shuffle_data_alignment [⟨[10, 20]⟩] [[1], [2]] [("a", [("c", 0)])] 0).2.2.2.1⟩

theorem is_subsequence_iff_sublist : ∀ (s p : List Int),
    is_subsequence p s = true ↔ p.Sublist s := by
  intro s
  induction s with
  | nil =>
    intro p
    cases p with
    | nil => simp [is_subsequence]
    | cons a p' => simp [is_subsequence]
  | cons b s ih =>
    intro p
    cases p with
    | nil => simp [is_subsequence, List.nil_sublist]
    | cons a p' =>
      by_cases hab : a = b
      · subst hab
        simp [is_subsequence, ih, List.cons_sublist_cons]
      · simp only [is_subsequence, if_neg hab, ih]
        constructor
        · intro h
          exact h.cons _
        · intro h
          cases h with
          | cons _ h2 => exact h2
          | cons₂ => exact absurd rfl hab

/-- C9: for a window at least as long as the sequence, the rolling check
coincides with the plain check, which is true iff the pattern occurs at a
strictly increasing sequence of positions (i.e. is a sublist). -/
theorem is_subsequence_in_rolling_window_ge (p s : List Int) (w : Nat)
    (hw : s.length ≤ w) :
    is_subsequence_in_rolling p s w = is_subsequence p s ∧
    (is_subsequence p s = true ↔ p.Sublist s) := by
  refine ⟨?_, is_subsequence_iff_sublist s p⟩
  unfold is_subsequence_in_rolling
  by_cases hlen : s.length < p.length
  · rw [if_pos hlen]
    cases hb : is_subsequence p s
    · rfl
    · have hsub : p.Sublist s := (is_subsequence_iff_sublist s p).1 hb
      have := hsub.length_le
      omega
  · rw [if_neg hlen, if_pos hw]

/-- Witness for C9 on the spec's own example: pattern `[1, 3]` in sequence
`[1, 2, 3]` with window 3. -/
theorem is_subsequence_in_rolling_window_ge_witness :
    ([1, 2, 3] : List Int).length ≤ 3 ∧
    (is_subsequence_in_rolling [1, 3] [1, 2, 3] 3 = is_subsequence [1, 3] [1, 2, 3] ∧
      (is_subsequence [1, 3] [1, 2, 3] = true ↔
        ([1, 3] : List Int).Sublist [1, 2, 3])) :=
  ⟨by decide, is_subsequence_in_rolling_window_ge [1, 3] [1, 2, 3] 3 (by decide)⟩

end Seq2Pat
